import Mathlib

/-!
Verification of the PhysicsFS 1.x ZIP archiver (src/archivers/zip.c) against its
natural-language specification.

The C code is shallowly embedded: C strings become lists of bytes (`Name`,
bytes are `Nat` values, the NUL terminator is implicit unless a definition
needs raw-buffer semantics), machine integers become `Nat`/`Int` with explicit
wrap-around where it matters, and the abstract ByteSource (the platform I/O
layer, an external collaborator in the spec) is a pure byte list or an oracle
parameter.  Loops are embedded either as fuel-indexed recursions or as step
functions iterated explicitly.
-/

/-- A C string as the list of its bytes before the NUL terminator.
Names coming from archives contain no 0 byte. -/
abbrev Name := List Nat

/-- strcmp on NUL-terminated strings (bytes compared as unsigned chars).
When one string is a proper prefix of the other, its NUL (0) compares below
the other string's next byte, hence the `.lt`/`.gt` results on nil. -/
def strcmp : Name → Name → Ordering
  | [], [] => Ordering.eq
  | [], _ :: _ => Ordering.lt
  | _ :: _, [] => Ordering.gt
  | a :: as, b :: bs =>
    if a < b then Ordering.lt
    else if b < a then Ordering.gt
    else strcmp as bs

/-- strncmp on NUL-terminated strings: compare at most `n` bytes, stopping at
the terminator like the C library function. -/
def strncmpL : Name → Name → Nat → Ordering
  | _, _, 0 => Ordering.eq
  | [], [], _ + 1 => Ordering.eq
  | [], _ :: _, _ + 1 => Ordering.lt
  | _ :: _, [], _ + 1 => Ordering.gt
  | a :: as, b :: bs, n + 1 =>
    if a < b then Ordering.lt
    else if b < a then Ordering.gt
    else strncmpL as bs n

theorem strcmp_self (a : Name) : strcmp a a = Ordering.eq := by
  induction a with
  | nil => rfl
  | cons x xs ih => simp [strcmp, ih]

theorem strcmp_eq_iff {a b : Name} : strcmp a b = Ordering.eq ↔ a = b := by
  induction a generalizing b with
  | nil => cases b <;> simp [strcmp]
  | cons x xs ih =>
    cases b with
    | nil => simp [strcmp]
    | cons y ys =>
      simp only [strcmp]
      split_ifs with h1 h2
      · simp; omega
      · simp; omega
      · have hxy : x = y := by omega
        subst hxy
        simp [ih]

theorem strcmp_gt_iff {a b : Name} : strcmp a b = Ordering.gt ↔ strcmp b a = Ordering.lt := by
  induction a generalizing b with
  | nil => cases b <;> simp [strcmp]
  | cons x xs ih =>
    cases b with
    | nil => simp [strcmp]
    | cons y ys =>
      simp only [strcmp]
      split_ifs with h1 h2 h3 h4 <;> simp_all <;> omega

/-- The non-strict order used for sortedness of the entry table. -/
def nameLE (a b : Name) : Prop := strcmp a b ≠ Ordering.gt

theorem nameLE_trans {a b c : Name} (hab : nameLE a b) (hbc : nameLE b c) : nameLE a c := by
  induction a generalizing b c with
  | nil => cases c <;> simp [nameLE, strcmp]
  | cons x xs ih =>
    cases b with
    | nil => simp [nameLE, strcmp] at hab
    | cons y ys =>
      cases c with
      | nil => simp [nameLE, strcmp] at hbc
      | cons z zs =>
        simp only [nameLE, strcmp] at hab hbc ⊢
        by_cases hxy : x < y
        · rw [if_pos hxy] at hab
          by_cases hyz : y < z
          · rw [if_pos (by omega : x < z)]
            simp
          · by_cases hzy : z < y
            · rw [if_neg hyz, if_pos hzy] at hbc
              exact absurd rfl hbc
            · rw [if_pos (by omega : x < z)]
              simp
        · by_cases hyx : y < x
          · rw [if_neg hxy, if_pos hyx] at hab
            exact absurd rfl hab
          · rw [if_neg hxy, if_neg hyx] at hab
            by_cases hyz : y < z
            · rw [if_pos (by omega : x < z)]
              simp
            · by_cases hzy : z < y
              · rw [if_neg hyz, if_pos hzy] at hbc
                exact absurd rfl hbc
              · rw [if_neg hyz, if_neg hzy] at hbc
                rw [if_neg (by omega : ¬ x < z), if_neg (by omega : ¬ z < x)]
                exact ih hab hbc

theorem nameLE_total (a b : Name) : nameLE a b ∨ nameLE b a := by
  by_cases h : strcmp a b = Ordering.gt
  · right
    have := strcmp_gt_iff.mp h
    simp [nameLE, this]
  · left; exact h

theorem nameLE_of_gt {a b : Name} (h : strcmp a b = Ordering.gt) : nameLE b a := by
  have := strcmp_gt_iff.mp h
  simp [nameLE, this]

/-! ## Entry data model (zip.c lines 59-96)

`ZIPentry` keeps the fields that the verified operations touch: the name, the
lazy-resolution state, the symlink target (modelled as an index into the entry
table, spec section 9 "let symlink_target be an index"), and `version`
("version made by", whose high byte is the host OS code). -/

inductive ZipResolveType
  | unresolvedFile
  | unresolvedSymlink
  | resolving
  | resolved
  | brokenFile
  | brokenSymlink
deriving DecidableEq, Repr

structure ZEntry where
  name : Name
  resolved : ZipResolveType
  symlink : Option Nat
  version : Nat
deriving DecidableEq, Repr

/-- zip_entry_is_symlink (zip.c:846-851). -/
def zip_entry_is_symlink (e : ZEntry) : Bool :=
  e.resolved = ZipResolveType.unresolvedSymlink ||
  e.resolved = ZipResolveType.brokenSymlink ||
  e.symlink.isSome

/-! ## C9: initial resolve state from the central-directory record -/

/-- zip_version_does_symlinks (zip.c:814-843).  The host-OS byte is the upper
8 bits of the 16-bit "version made by" field; the C cast
`(PHYSFS_uint8)((version >> 8) & 0xFF)` is `(version / 256) % 256`.
The switch cases listing platforms that cannot store symlinks become
equality tests. -/
def zip_version_does_symlinks (version : Nat) : Bool :=
  let hosttype := (version / 256) % 256
  if hosttype = 0 ∨ hosttype = 1 ∨ hosttype = 2 ∨ hosttype = 4 ∨ hosttype = 6 ∨
     hosttype = 11 ∨ hosttype = 14 ∨ hosttype = 13 ∨ hosttype = 15 ∨ hosttype = 18
  then false
  else true

/-- zip_has_symlink_attr (zip.c:854-863): the upper 16 bits of the external
attributes, masked with the Unix file-type mask 0170000, must be the
symlink file type 0120000; the entry must be non-empty and the creating
host must support symlinks. -/
def zip_has_symlink_attr (version usize extattr : Nat) : Bool :=
  let xattr := (extattr / 65536) % 65536
  zip_version_does_symlinks version && decide (0 < usize) &&
    decide (xattr &&& 0o170000 = 0o120000)

/-- zip_load_entry (zip.c:923-925): the initial `resolved` state chosen while
parsing one central-directory record. -/
def initialResolved (version usize extattr : Nat) : ZipResolveType :=
  if zip_has_symlink_attr version usize extattr then ZipResolveType.unresolvedSymlink
  else ZipResolveType.unresolvedFile

theorem zip_version_does_symlinks_iff (version : Nat) :
    zip_version_does_symlinks version = true ↔
      (version / 256) % 256 ∉ ([0, 1, 2, 4, 6, 11, 14, 13, 15, 18] : List Nat) := by
  simp only [zip_version_does_symlinks, List.mem_cons, List.not_mem_nil, or_false]
  split_ifs with h
  · simp [h]
  · simp [h]

/-- C9: for every central-directory record, the entry starts as
`UnresolvedSymlink` exactly when the host-OS byte of version_made_by is outside
{0,1,2,4,6,11,14,13,15,18}, the uncompressed size is positive, and the upper
16 bits of the external attributes masked with 0170000 equal 0120000; in every
other case it starts as `UnresolvedFile`. -/
theorem C9_initial_resolved_state (version usize extattr : Nat) :
    initialResolved version usize extattr = ZipResolveType.unresolvedSymlink ↔
      ((version / 256) % 256 ∉ ([0, 1, 2, 4, 6, 11, 14, 13, 15, 18] : List Nat) ∧
        0 < usize ∧
        ((extattr / 2 ^ 16) % 2 ^ 16) &&& 0o170000 = 0o120000) := by
  have h2 : (2 : Nat) ^ 16 = 65536 := by norm_num
  rw [h2]
  simp only [initialResolved, zip_has_symlink_attr]
  split_ifs with hcond
  · simp only [Bool.and_eq_true, decide_eq_true_eq] at hcond
    obtain ⟨⟨hv, hu⟩, hx⟩ := hcond
    simp only [true_iff, iff_true]
    exact ⟨(zip_version_does_symlinks_iff version).mp hv, hu, hx⟩
  · constructor
    · intro habs
      exact absurd habs (by simp)
    · rintro ⟨hv, hu, hx⟩
      exfalso
      apply hcond
      simp only [Bool.and_eq_true, decide_eq_true_eq]
      exact ⟨⟨(zip_version_does_symlinks_iff version).mpr hv, hu⟩, hx⟩

/-! ## C4: ZIP_seek (STORE arm) and ZIP_tell -/

/-- The per-open-file state used by the STORE (compression method 0) arm of
the streaming reader (`ZIPfileinfo`, zip.c:101-109, restricted to the fields
that arm touches, plus the ByteSource cursor of the private file handle). -/
structure StoreFile where
  offset : Nat                 /- entry->offset: file-data start in the archive -/
  uncompressed_size : Nat      /- entry->uncompressed_size -/
  uncompressed_position : Nat  /- finfo->uncompressed_position -/
  cursor : Nat                 /- __PHYSFS_platformTell of finfo->handle -/
deriving DecidableEq, Repr

/-- ZIP_seek, STORE arm (zip.c:342-355): after the PastEOF guard the code
computes `newpos = offset + entry->offset`, seeks the ByteSource there, and
stores `newpos` — not `offset` — into `finfo->uncompressed_position`.
`none` models the ERR_PAST_EOF bail; the platform seek succeeds (lseek to any
non-negative position succeeds). -/
def ZIP_seek_store (f : StoreFile) (offset : Nat) : Option StoreFile :=
  if offset > f.uncompressed_size then none
  else some { f with cursor := offset + f.offset,
                     uncompressed_position := offset + f.offset }

/-- ZIP_tell (zip.c:336-339). -/
def ZIP_tell (f : StoreFile) : Nat := f.uncompressed_position

/-- C4: on a STORE file whose data starts at archive offset 30 (the smallest
possible after local-header resolution) with uncompressed size 14, seeking to
offset 5 makes `tell` report 35, not 5: the code stores the absolute archive
position `offset + entry->offset` into the field `tell` reads and `ZIP_read`
clamps with, contradicting the claim that after `seek(b)` the position used by
subsequent reads and reported by `tell` is `b`. -/
theorem C4_store_seek_corrupts_tell :
    (ZIP_seek_store ⟨30, 14, 0, 30⟩ 5).map ZIP_tell = some 35 ∧ (35 : Nat) ≠ 5 := by
  constructor
  · rfl
  · decide

/-! ## C8: ZIP_read clamping and the PastEOF flag -/

/-- Result of one `ZIP_read` call: whole objects delivered, whether the
per-call PastEOF error was set, and the updated `uncompressed_position`. -/
structure ReadOutcome where
  objects : Int
  pastEOF : Bool
  newPos : Int
deriving DecidableEq, Repr

/-- ZIP_read (zip.c:255-326).  All the `PHYSFS_sint64` arithmetic of the
clamping prologue is kept exactly: `maxread = objSize * objCount`,
`avail = uncompressed_size - uncompressed_position`; on `avail < maxread` the
code sets `maxread = avail - avail % objSize`, `objCount = maxread / objSize`,
bails with 0/PastEOF when that count is zero and otherwise records PastEOF and
proceeds with the clamped count.  `body` abstracts the delivery paths — the
single `__PHYSFS_platformRead` of the STORE branch and the zlib pump of the
DEFLATE branch (both external collaborators per the spec) — returning the
number of whole objects delivered for a requested size and count.  At the end
the code advances `uncompressed_position` by `retval * objSize` when any
objects were delivered. -/
def ZIP_read (usize ucp objSize objCount : Int) (body : Int → Int → Int) : ReadOutcome :=
  if objSize * objCount = 0 then ⟨0, false, ucp⟩
  else if usize - ucp < objSize * objCount then
    if ((usize - ucp) - (usize - ucp) % objSize) / objSize = 0 then ⟨0, true, ucp⟩
    else
      ⟨body objSize (((usize - ucp) - (usize - ucp) % objSize) / objSize), true,
        if 0 < body objSize (((usize - ucp) - (usize - ucp) % objSize) / objSize) then
          ucp + body objSize (((usize - ucp) - (usize - ucp) % objSize) / objSize) * objSize
        else ucp⟩
  else
    ⟨body objSize objCount, false,
      if 0 < body objSize objCount then ucp + body objSize objCount * objSize
      else ucp⟩

/-- C8: for positive object size and count, when the requested byte count
exceeds the bytes remaining the request is clamped to the largest whole-object
count that fits (`avail / objSize`) and PastEOF is set, a clamp to zero
objects returns 0 with PastEOF, reads that fit set no PastEOF, and the
position after the call never passes `uncompressed_size`. -/
theorem C8_read_clamp_and_pasteof (usize ucp objSize objCount : Int)
    (body : Int → Int → Int)
    (hS : 0 < objSize) (hC : 0 < objCount) (hle : ucp ≤ usize)
    (hbody : ∀ s c, 0 < s → 0 < c → 0 ≤ body s c ∧ body s c ≤ c) :
    (usize - ucp < objSize * objCount →
       (ZIP_read usize ucp objSize objCount body).pastEOF = true ∧
       (ZIP_read usize ucp objSize objCount body).objects ≤ (usize - ucp) / objSize ∧
       ((usize - ucp) / objSize = 0 →
          ZIP_read usize ucp objSize objCount body = ⟨0, true, ucp⟩) ∧
       (0 < (usize - ucp) / objSize →
          (ZIP_read usize ucp objSize objCount body).objects =
            body objSize ((usize - ucp) / objSize))) ∧
    (objSize * objCount ≤ usize - ucp →
       (ZIP_read usize ucp objSize objCount body).pastEOF = false) ∧
    (ZIP_read usize ucp objSize objCount body).newPos ≤ usize := by
  have hSne : objSize ≠ 0 := ne_of_gt hS
  have hmz : objSize * objCount ≠ 0 := ne_of_gt (mul_pos hS hC)
  have havail : 0 ≤ usize - ucp := by omega
  have hdm := Int.ediv_add_emod (usize - ucp) objSize
  have hmodnn := Int.emod_nonneg (usize - ucp) hSne
  have hsub : usize - ucp - (usize - ucp) % objSize =
      objSize * ((usize - ucp) / objSize) := by omega
  have hcount2 : (usize - ucp - (usize - ucp) % objSize) / objSize =
      (usize - ucp) / objSize := by
    rw [hsub, Int.mul_ediv_cancel_left _ hSne]
  have hdivnn : 0 ≤ (usize - ucp) / objSize := Int.ediv_nonneg havail (le_of_lt hS)
  have hmulle : objSize * ((usize - ucp) / objSize) ≤ usize - ucp := by omega
  unfold ZIP_read
  rw [if_neg hmz, hcount2]
  split_ifs with hclamp hzero hpos hpos
  · -- clamped to zero objects
    refine ⟨fun _ => ⟨rfl, by simpa [hzero] , fun _ => rfl, fun hgt => by omega⟩,
            fun hfit => by omega, by simp; omega⟩
  · -- clamped, positive object count, body delivered something
    have hcpos : 0 < (usize - ucp) / objSize := by omega
    obtain ⟨hrnn, hrle⟩ := hbody objSize ((usize - ucp) / objSize) hS hcpos
    refine ⟨fun _ => ⟨rfl, hrle, fun hz => by omega, fun _ => rfl⟩,
            fun hfit => by omega, ?_⟩
    have hmul : body objSize ((usize - ucp) / objSize) * objSize ≤
        objSize * ((usize - ucp) / objSize) := by
      calc body objSize ((usize - ucp) / objSize) * objSize
          ≤ ((usize - ucp) / objSize) * objSize :=
            mul_le_mul_of_nonneg_right hrle (le_of_lt hS)
        _ = objSize * ((usize - ucp) / objSize) := mul_comm _ _
    simp only
    omega
  · -- clamped, positive object count, body delivered nothing positive
    have hcpos : 0 < (usize - ucp) / objSize := by omega
    obtain ⟨hrnn, hrle⟩ := hbody objSize ((usize - ucp) / objSize) hS hcpos
    refine ⟨fun _ => ⟨rfl, hrle, fun hz => by omega, fun _ => rfl⟩,
            fun hfit => by omega, ?_⟩
    simp only
    omega
  · -- no clamp, body delivered something
    obtain ⟨hrnn, hrle⟩ := hbody objSize objCount hS hC
    refine ⟨fun hlt => absurd hlt (by omega), fun _ => rfl, ?_⟩
    have hmul : body objSize objCount * objSize ≤ objSize * objCount := by
      calc body objSize objCount * objSize
          ≤ objCount * objSize := mul_le_mul_of_nonneg_right hrle (le_of_lt hS)
        _ = objSize * objCount := mul_comm _ _
    simp only
    omega
  · -- no clamp, body delivered nothing positive
    refine ⟨fun hlt => absurd hlt (by omega), fun _ => rfl, ?_⟩
    simp only
    omega

theorem C8_witness :
    (ZIP_read 10 8 3 4 (fun _ c => c)).newPos ≤ 10 :=
  (C8_read_clamp_and_pasteof 10 8 3 4 (fun _ c => c) (by norm_num) (by norm_num)
    (by norm_num) (fun s c _ hc => ⟨le_of_lt hc, le_refl c⟩)).2.2

/-! ## C6 / C2: end-of-central-directory location and archive detection

The ByteSource is a plain byte list `file`; `__PHYSFS_platformFileLength` is
`file.length`, an absolute seek succeeds exactly for non-negative positions,
and `__PHYSFS_platformRead(buf, n, 1)` succeeds exactly when `n` bytes remain
at the cursor. -/

inductive LocErr
  | notAnArchive  /- BAIL ERR_NOT_AN_ARCHIVE, returns -1 -/
  | ioSeek        /- __PHYSFS_platformSeek failed, returns -1 -/
  | ioRead        /- __PHYSFS_platformRead failed, returns -1 -/
  | fuelOut       /- model artefact, never reached with the supplied fuel -/
deriving DecidableEq, Repr

/-- The `n` bytes at absolute position `pos` of the file. -/
def byteSlice (file : List Nat) (pos n : Nat) : List Nat := (file.drop pos).take n

/-- The four-byte end-of-central-dir signature 50 4B 05 06 at buffer index `i`
(zip.c:480-483). -/
def sigAt (buf : List Nat) (i : Nat) : Bool :=
  buf.getD i 0 == 0x50 && buf.getD (i + 1) 0 == 0x4B &&
  buf.getD (i + 2) 0 == 0x05 && buf.getD (i + 3) 0 == 0x06

/-- The scan `for (i = maxread - 4; i > 0; i--)` (zip.c:478-488): the first
hit walking downwards, never looking at buffer index 0. -/
def scanSig (buf : List Nat) : Nat → Option Nat
  | 0 => none
  | i + 1 => if sigAt buf (i + 1) then some (i + 1) else scanSig buf i

/-- The `while ((totalread < filelen) && (totalread < 65557))` loop of
zip_find_end_of_central_dir (zip.c:457-494).  `maxread` is fixed after the
window setup; on every iteration after the first, only `maxread - 4` bytes are
read and the previous window's first four bytes (`extra`) are spliced in at
the top of the buffer; the window then shifts back by `maxread - 4` (signed
arithmetic, hence `filepos : Int`). -/
def zip_eocd_loop (file : List Nat) (maxread : Nat) :
    Nat → Int → Nat → List Nat → Except LocErr Int
  | 0, _, _, _ => Except.error LocErr.fuelOut
  | fuel + 1, filepos, totalread, extra =>
    if totalread < file.length ∧ totalread < 65557 then
      if filepos < 0 then Except.error LocErr.ioSeek
      else
        let readLen := if totalread ≠ 0 then maxread - 4 else maxread
        if file.length < filepos.toNat + readLen then Except.error LocErr.ioRead
        else
          let buf := if totalread ≠ 0 then byteSlice file filepos.toNat (maxread - 4) ++ extra
                     else byteSlice file filepos.toNat maxread
          match scanSig buf (maxread - 4) with
          | some i => Except.ok (filepos + i)
          | none =>
              zip_eocd_loop file maxread fuel (filepos - ((maxread : Int) - 4))
                (totalread + readLen) (buf.take 4)
    else Except.error LocErr.notAnArchive

/-- zip_find_end_of_central_dir (zip.c:420-502): window setup
`if (sizeof (buf) < filelen) { filepos = filelen - 256; maxread = 256; } else
{ filepos = 0; maxread = filelen; }` followed by the scan loop.  300 units of
fuel cover the at most ⌈65557/252⌉ + 1 iterations the loop can make. -/
def zip_find_end_of_central_dir (file : List Nat) : Except LocErr Int :=
  if 256 < file.length then
    zip_eocd_loop file 256 300 ((file.length : Int) - 256) 0 []
  else
    zip_eocd_loop file file.length 300 0 0 []

/-- The 22-byte bare end-of-central-directory record: a valid empty ZIP
archive (signature, all counts zero, no comment). -/
def emptyZipFile : List Nat :=
  [0x50, 0x4B, 0x05, 0x06, 0, 0, 0, 0, 0, 0, 0, 0, 0, 0, 0, 0, 0, 0, 0, 0, 0, 0]

/-- C6: the EOCD locator misses a signature at position 0 of its scan window
because the scan stops at index 1: on the 22-byte bare EOCD file — the
canonical empty archive, whose signature occurrence is at offset 0, well
within the last 65,557 bytes — it fails with NotAnArchive instead of
returning offset 0. -/
theorem C6_eocd_misses_offset_zero :
    zip_find_end_of_central_dir emptyZipFile = Except.error LocErr.notAnArchive ∧
    sigAt emptyZipFile 0 = true ∧
    emptyZipFile.length = 22 := by
  refine ⟨?_, by decide, by decide⟩
  rfl

/-- readui32 on the first four bytes of the file, little endian
(zip.c:234-240, 518). -/
def readLE32 (file : List Nat) : Nat :=
  file.getD 0 0 + file.getD 1 0 * 256 + file.getD 2 0 * 65536 +
    file.getD 3 0 * 16777216

/-- ZIP_isArchive (zip.c:505-532).  When the first four bytes are not the
local-file-header signature, the code sets
`retval = (zip_find_end_of_central_dir(in, NULL) == -1)` — true exactly when
the locator FAILED (every failure path returns -1, every success returns a
non-negative offset).  A file shorter than 4 bytes makes readui32 fail and
the function bail with 0 (false). -/
def ZIP_isArchive (file : List Nat) : Bool :=
  if file.length < 4 then false
  else if readLE32 file = 0x04034b50 then true
  else
    match zip_find_end_of_central_dir file with
    | Except.ok _ => false
    | Except.error _ => true

/-- Four bytes of garbage: no local-file-header signature, no EOCD anywhere. -/
def c2garbageFile : List Nat := [1, 1, 1, 1]

/-- A file with 4 prepended junk bytes followed by an EOCD signature at
offset 4: the locator succeeds on it. -/
def c2prependedFile : List Nat := [0, 0, 0, 0, 0x50, 0x4B, 0x05, 0x06]

/-- C2: ZIP_isArchive's second test is inverted.  On a 4-byte garbage file the
locator fails with NotAnArchive yet ZIP_isArchive returns true; on a file
whose EOCD signature the locator does find (at offset 4) ZIP_isArchive
returns false.  The claim — true iff the local signature is first or the
locator succeeds — is exactly the opposite on both inputs. -/
theorem C2_isArchive_inverted :
    (ZIP_isArchive c2garbageFile = true ∧
      zip_find_end_of_central_dir c2garbageFile = Except.error LocErr.notAnArchive ∧
      readLE32 c2garbageFile ≠ 0x04034b50) ∧
    (ZIP_isArchive c2prependedFile = false ∧
      zip_find_end_of_central_dir c2prependedFile = Except.ok 4 ∧
      readLE32 c2prependedFile ≠ 0x04034b50) := by
  refine ⟨⟨?_, ?_, by decide⟩, ⟨?_, ?_, by decide⟩⟩ <;> rfl

/-! ## C3: zip_expand_symlink_path

The function edits a NUL-terminated string in place through two pointers.  The
embedding keeps the raw buffer (bytes including the terminator and any stale
bytes after it — the code really reads those after shortening the string) and
the two pointers as indices.  One `while (1)` iteration becomes `expandStep`;
`none` is the `break`. -/

/-- strchr scanning from a buffer index: first index `≥ i` holding `c`,
stopping at the NUL terminator. -/
def strchrAux (c : Nat) : List Nat → Nat → Option Nat
  | [], _ => none
  | b :: rest, i => if b = 0 then none else if b = c then some i else strchrAux c rest (i + 1)

def strchrFrom (buf : List Nat) (c i : Nat) : Option Nat := strchrAux c (buf.drop i) i

/-- strlen from a buffer index: bytes before the NUL terminator. -/
def strlenAux : List Nat → Nat
  | [] => 0
  | b :: rest => if b = 0 then 0 else 1 + strlenAux rest

def strlenFrom (buf : List Nat) (i : Nat) : Nat := strlenAux (buf.drop i)

/-- memmove within the buffer: copy `n` bytes from index `src` to index
`dst` (dst ≤ src in every call site here, so the list splice is exact). -/
def memmoveBuf (buf : List Nat) (dst src n : Nat) : List Nat :=
  buf.take dst ++ (buf.drop src).take n ++ buf.drop (dst + n)

/-- The `while (prevptr != path) { prevptr--; if (*prevptr == '/')
{ prevptr++; break; } }` backtrack (zip.c:621-629): one past the last `/`
strictly before `p`, or 0. -/
def backtrackPrev (buf : List Nat) : Nat → Nat
  | 0 => 0
  | j + 1 => if buf.getD j 0 = 47 then j + 1 else backtrackPrev buf j

/-- State of zip_expand_symlink_path between loop iterations: the buffer and
the `ptr` / `prevptr` cursors. -/
structure ExpState where
  buf : List Nat
  ptr : Nat
  prevptr : Nat
deriving DecidableEq, Repr

/-- One iteration of the `while (1)` loop of zip_expand_symlink_path
(zip.c:589-644).  `none` models the `break` when no further `/` exists.
Every branch follows the source: `ptr = strchr(ptr, '/')`; dispatch on the
bytes after the slash; note that the branch for a slash followed by an
ordinary (non-`.`) byte only records `prevptr = ptr` and leaves `ptr` on the
slash it just found. -/
def expandStep (s : ExpState) : Option ExpState :=
  match strchrFrom s.buf 47 s.ptr with
  | none => none
  | some k =>
    if s.buf.getD (k + 1) 0 = 46 then
      if s.buf.getD (k + 2) 0 = 47 then
        some { s with ptr := k,
                      buf := memmoveBuf s.buf k (k + 2) (strlenFrom s.buf (k + 2) + 1) }
      else if s.buf.getD (k + 2) 0 = 0 then
        some { s with ptr := k, buf := s.buf.set k 0 }
      else if s.buf.getD (k + 2) 0 = 46 then
        let s1 : ExpState :=
          if s.buf.getD (k + 3) 0 = 47 then
            let buf2 := memmoveBuf s.buf s.prevptr (k + 4) (strlenFrom s.buf (k + 4) + 1)
            { buf := buf2, ptr := s.prevptr, prevptr := backtrackPrev buf2 s.prevptr }
          else { s with ptr := k }
        if s1.buf.getD (s1.ptr + 3) 0 = 0 then
          some { s1 with buf := s1.buf.set s1.prevptr 0 }
        else some s1
      else some { s with ptr := k }
    else some { s with ptr := k, prevptr := k }

/-- Iterate `expandStep`: `some buf` when the loop breaks within `n`
iterations (the function returns and the normalized string is in the buffer),
`none` when it is still running after `n` iterations. -/
def expandRun : Nat → ExpState → Option (List Nat)
  | 0, _ => none
  | n + 1, s =>
    match expandStep s with
    | none => some s.buf
    | some s2 => expandRun n s2

/-- Initial state for a symlink target: the target bytes, NUL-terminated,
both cursors at the start (zip.c:591-592). -/
def expandInit (target : Name) : ExpState := ⟨target ++ [0], 0, 0⟩

theorem expandRun_stuck {s : ExpState} (h : expandStep s = some s) :
    ∀ n, expandRun n s = none := by
  intro n
  induction n with
  | zero => rfl
  | succ m ih => simp [expandRun, h, ih]

/-- C3: symlink resolution does NOT terminate for every target: on the target
`a/b` — a `/` followed by an ordinary (non-dot) segment — the loop finds the
`/` at index 1, takes the branch that only sets `prevptr`, leaves `ptr` on
that same `/`, and reaches a fixed point of `expandStep`; hence no number of
iterations ever reaches the `break`, and `zip_resolve` of a symlink with this
target never returns. -/
theorem C3_expand_symlink_path_diverges :
    expandStep ⟨[97, 47, 98, 0], 1, 1⟩ = some ⟨[97, 47, 98, 0], 1, 1⟩ ∧
    ∀ n, expandRun n (expandInit [97, 47, 98]) = none := by
  have hfix : expandStep ⟨[97, 47, 98, 0], 1, 1⟩ = some ⟨[97, 47, 98, 0], 1, 1⟩ := by rfl
  refine ⟨hfix, ?_⟩
  intro n
  cases n with
  | zero => rfl
  | succ m =>
    have hinit : expandStep (expandInit [97, 47, 98]) = some ⟨[97, 47, 98, 0], 1, 1⟩ := by rfl
    simp [expandRun, hinit, expandRun_stuck hfix]

/-! ## C5: zip_sort_entries and zip_find_entry

Entries are sorted in place keyed on `name`; each `ZIPentry` travels with its
name, so the model sorts the `ZEntry` list directly. -/

def entLE (x y : ZEntry) : Prop := nameLE x.name y.name

theorem entLE_trans {x y z : ZEntry} (h1 : entLE x y) (h2 : entLE y z) : entLE x z :=
  nameLE_trans h1 h2

/-- The strict-greater test `strcmp(a[j - 1].name, tmp.name) > 0` of the
insertion-sort inner loop. -/
def entGTb (x : ZEntry) (y : ZEntry) : Bool := decide (strcmp y.name x.name = Ordering.gt)

/-- One outer iteration of zip_insertion_sort (zip.c:999-1009): `tmp = a[i]`,
then the inner `while ((j > lo) && (strcmp(a[j-1].name, tmp.name) > 0))`
shifts the maximal run of elements strictly greater than `tmp` one slot right
and drops `tmp` in front of it.  On the list of already-processed elements
`pre` this is: split off the longest suffix of elements whose name compares
strictly greater than `x.name` (scanning from the right, exactly the shifted
run) and place `x` before it. -/
def zinsertFromRight (x : ZEntry) (pre : List ZEntry) : List ZEntry :=
  (pre.reverse.dropWhile (entGTb x)).reverse ++ x :: (pre.reverse.takeWhile (entGTb x)).reverse

/-- The `for (i = lo + 1; i <= hi; i++)` drive of zip_insertion_sort over the
not-yet-processed suffix. -/
def zip_insertion_sort_go : List ZEntry → List ZEntry → List ZEntry
  | pre, [] => pre
  | pre, x :: rest => zip_insertion_sort_go (zinsertFromRight x pre) rest

/-- zip_insertion_sort (zip.c:993-1010) for the call site
`zip_insertion_sort(entries, 0, max - 1)` with `max` = the number of entries:
the first element alone is the initial sorted prefix. -/
def zip_insertion_sort (a : List ZEntry) : List ZEntry :=
  match a with
  | [] => []
  | x :: rest => zip_insertion_sort_go [x] rest

/-- zip_quick_sort (zip.c:960-990).  Its whole body is guarded by
`if ((hi - lo) > ZIP_QUICKSORT_THRESHOLD)` with the threshold 4.
zip_sort_entries only calls it when `max <= 4`, i.e. with `hi - lo <= 3`,
where the guard fails and the call is the identity; the one exception is
`max = 0`, where `hi = max - 1` wraps around to 2^32 - 1 and the body would
run its sentinel scans over unallocated memory — `none` marks that the model
does not assign a result there. -/
def zip_quick_sort (a : List ZEntry) (lo hi : Nat) : Option (List ZEntry) :=
  if 4 < hi - lo then none
  else some a

/-- zip_sort_entries (zip.c:1013-1022): the inverted threshold conditional
`if (max <= ZIP_QUICKSORT_THRESHOLD) zip_quick_sort(entries, 0, max - 1);`
followed by the UNCONDITIONAL `zip_insertion_sort(entries, 0, max - 1);`.
`max - 1` is computed in PHYSFS_uint32. -/
def zip_sort_entries (a : List ZEntry) (max : Nat) : Option (List ZEntry) :=
  (if max ≤ 4 then zip_quick_sort a 0 ((max + (2 ^ 32 - 1)) % 2 ^ 32)
   else some a).map zip_insertion_sort

theorem dropWhile_head_false {α : Type} (p : α → Bool) :
    ∀ (l : List α) {y : α} {ys : List α}, l.dropWhile p = y :: ys → p y = false := by
  intro l
  induction l with
  | nil => intro y ys h; cases h
  | cons a as ih =>
    intro y ys h
    by_cases hp : p a = true
    · simp only [List.dropWhile, hp] at h
      exact ih h
    · simp only [List.dropWhile, Bool.eq_false_iff.mpr hp] at h
      cases h
      simpa using hp

theorem zinsert_split (x : ZEntry) (pre : List ZEntry) :
    (pre.reverse.dropWhile (entGTb x)).reverse ++ (pre.reverse.takeWhile (entGTb x)).reverse
      = pre := by
  rw [← List.reverse_append, List.takeWhile_append_dropWhile, List.reverse_reverse]

theorem pairwise_zinsertFromRight {x : ZEntry} {pre : List ZEntry}
    (h : pre.Pairwise entLE) : (zinsertFromRight x pre).Pairwise entLE := by
  have hpre2 : ((pre.reverse.dropWhile (entGTb x)).reverse ++
      (pre.reverse.takeWhile (entGTb x)).reverse).Pairwise entLE := by
    rw [zinsert_split]; exact h
  rw [List.pairwise_append] at hpre2
  obtain ⟨hD, hT, hcross⟩ := hpre2
  have hTmem : ∀ t ∈ (pre.reverse.takeWhile (entGTb x)).reverse,
      strcmp t.name x.name = Ordering.gt := by
    intro t ht
    rw [List.mem_reverse] at ht
    have := List.mem_takeWhile_imp ht
    exact of_decide_eq_true this
  have hDx : ∀ d ∈ (pre.reverse.dropWhile (entGTb x)).reverse, entLE d x := by
    have hDflip := List.pairwise_reverse.mp hD
    intro d hd
    rw [List.mem_reverse] at hd
    cases hDrop : pre.reverse.dropWhile (entGTb x) with
    | nil => rw [hDrop] at hd; exact absurd hd (List.not_mem_nil d)
    | cons d0 ds =>
      have h0 : entGTb x d0 = false := dropWhile_head_false (entGTb x) pre.reverse hDrop
      have hd0x : entLE d0 x := of_decide_eq_false h0
      rw [hDrop] at hd hDflip
      rcases List.mem_cons.mp hd with hd1 | hd1
      · rw [hd1]; exact hd0x
      · have := (List.pairwise_cons.mp hDflip).1 d hd1
        exact entLE_trans this hd0x
  rw [zinsertFromRight, List.pairwise_append]
  refine ⟨hD, ?_, ?_⟩
  · rw [List.pairwise_cons]
    refine ⟨fun t ht => nameLE_of_gt (hTmem t ht), hT⟩
  · intro a ha b hb
    rcases List.mem_cons.mp hb with hb1 | hb1
    · rw [hb1]; exact hDx a ha
    · exact hcross a ha b hb1

theorem zinsertFromRight_perm (x : ZEntry) (pre : List ZEntry) :
    (zinsertFromRight x pre).Perm (x :: pre) := by
  have h1 : (zinsertFromRight x pre).Perm
      (x :: ((pre.reverse.dropWhile (entGTb x)).reverse ++
        (pre.reverse.takeWhile (entGTb x)).reverse)) := List.perm_middle
  rw [zinsert_split] at h1
  exact h1

theorem insertion_go_pairwise {rest pre : List ZEntry} (h : pre.Pairwise entLE) :
    (zip_insertion_sort_go pre rest).Pairwise entLE := by
  induction rest generalizing pre with
  | nil => exact h
  | cons x rest ih => exact ih (pairwise_zinsertFromRight h)

theorem insertion_go_perm (rest pre : List ZEntry) :
    (zip_insertion_sort_go pre rest).Perm (pre ++ rest) := by
  induction rest generalizing pre with
  | nil => simp [zip_insertion_sort_go]
  | cons x rest ih =>
    have h1 := ih (zinsertFromRight x pre)
    have h2 := (zinsertFromRight_perm x pre).append_right rest
    have h3 : (x :: pre) ++ rest = x :: (pre ++ rest) := rfl
    rw [h3] at h2
    exact (h1.trans h2).trans List.perm_middle.symm

theorem insertion_sort_pairwise (a : List ZEntry) :
    (zip_insertion_sort a).Pairwise entLE := by
  cases a with
  | nil => exact List.Pairwise.nil
  | cons x rest => exact insertion_go_pairwise (List.pairwise_singleton entLE x)

theorem insertion_sort_perm (a : List ZEntry) : (zip_insertion_sort a).Perm a := by
  cases a with
  | nil => exact List.Perm.refl []
  | cons x rest => exact insertion_go_perm rest [x]

/-- Result of the zip_find_entry binary search. -/
inductive BSearchRes
  | found (i : Nat)   /- return &a[middle] -/
  | miss              /- loop exhausted: BAIL ERR_NO_SUCH_FILE, NULL -/
  | oob (j : Int)     /- probe outside the entry table (cannot happen here) -/
  | fuelOut           /- model artefact, unreachable with the supplied fuel -/
deriving DecidableEq, Repr

/-- The `while (lo <= hi)` loop of zip_find_entry (zip.c:549-570):
`middle = lo + ((hi - lo) / 2)`, three-way branch on
`strcmp(path, a[middle].name)` in PHYSFS_sint32 arithmetic. -/
def zip_find_entry_go (entries : List ZEntry) (path : Name) :
    Nat → Int → Int → BSearchRes
  | 0, _, _ => BSearchRes.fuelOut
  | fuel + 1, lo, hi =>
    if lo ≤ hi then
      if h : 0 ≤ lo + (hi - lo) / 2 ∧ lo + (hi - lo) / 2 < (entries.length : Int) then
        match strcmp path (entries.get ⟨(lo + (hi - lo) / 2).toNat, by omega⟩).name with
        | Ordering.eq => BSearchRes.found (lo + (hi - lo) / 2).toNat
        | Ordering.gt => zip_find_entry_go entries path fuel (lo + (hi - lo) / 2 + 1) hi
        | Ordering.lt => zip_find_entry_go entries path fuel lo (lo + (hi - lo) / 2 - 1)
      else BSearchRes.oob (lo + (hi - lo) / 2)
    else BSearchRes.miss

/-- zip_find_entry (zip.c:549-570): `lo = 0`, `hi = entryCount - 1`. -/
def zip_find_entry (entries : List ZEntry) (path : Name) : BSearchRes :=
  zip_find_entry_go entries path (entries.length + 2) 0 ((entries.length : Int) - 1)

theorem zip_find_entry_go_finds (entries : List ZEntry) (path : Name)
    (hsort : entries.Pairwise entLE) :
    ∀ (fuel : Nat) (lo hi : Int), 0 ≤ lo → hi < (entries.length : Int) →
      (∃ i, ∃ hilen : i < entries.length,
        lo ≤ (i : Int) ∧ (i : Int) ≤ hi ∧ (entries.get ⟨i, hilen⟩).name = path) →
      hi - lo < (fuel : Int) →
      ∃ j, ∃ hj : j < entries.length,
        zip_find_entry_go entries path fuel lo hi = BSearchRes.found j ∧
        (entries.get ⟨j, hj⟩).name = path := by
  intro fuel
  induction fuel with
  | zero =>
    intro lo hi hlo hhi hwit hfuel
    obtain ⟨i, hilen, h1, h2, _⟩ := hwit
    omega
  | succ fuel ih =>
    intro lo hi hlo hhi hwit hfuel
    obtain ⟨i, hilen, hloi, hihi, hname⟩ := hwit
    have hlh : lo ≤ hi := le_trans hloi hihi
    have hmid1 : lo ≤ lo + (hi - lo) / 2 := by omega
    have hmid2 : lo + (hi - lo) / 2 ≤ hi := by omega
    have hbound : 0 ≤ lo + (hi - lo) / 2 ∧ lo + (hi - lo) / 2 < (entries.length : Int) := by
      constructor
      · omega
      · calc lo + (hi - lo) / 2 ≤ hi := hmid2
          _ < (entries.length : Int) := by omega
    rw [zip_find_entry_go, if_pos hlh, dif_pos hbound]
    have hmlt : (lo + (hi - lo) / 2).toNat < entries.length := by omega
    cases hc : strcmp path (entries.get ⟨(lo + (hi - lo) / 2).toNat, by omega⟩).name with
    | eq =>
      refine ⟨(lo + (hi - lo) / 2).toNat, hmlt, rfl, ?_⟩
      exact (strcmp_eq_iff.mp hc).symm
    | gt =>
      have hgt : (lo + (hi - lo) / 2) < (i : Int) := by
        by_contra hle
        push_neg at hle
        rcases lt_or_eq_of_le hle with hlt | heq
        · have hij : i < (lo + (hi - lo) / 2).toNat := by omega
          have hpw := (List.pairwise_iff_get.mp hsort) ⟨i, hilen⟩
            ⟨(lo + (hi - lo) / 2).toNat, hmlt⟩ hij
          have hnle : nameLE (entries.get ⟨i, hilen⟩).name
              (entries.get ⟨(lo + (hi - lo) / 2).toNat, hmlt⟩).name := hpw
          rw [hname] at hnle
          exact hnle hc
        · have hfin : (⟨(lo + (hi - lo) / 2).toNat, hmlt⟩ : Fin entries.length) =
              ⟨i, hilen⟩ := Fin.mk_eq_mk.mpr (by omega)
          have hnm : (entries.get ⟨(lo + (hi - lo) / 2).toNat, hmlt⟩).name = path := by
            rw [hfin]
            exact hname
          rw [hnm, strcmp_self] at hc
          cases hc
      have := ih (lo + (hi - lo) / 2 + 1) hi (by omega) hhi
        ⟨i, hilen, by omega, hihi, hname⟩ (by omega)
      exact this
    | lt =>
      have hlt : (i : Int) < lo + (hi - lo) / 2 := by
        by_contra hle
        push_neg at hle
        rcases lt_or_eq_of_le hle with hltm | heq
        · have hij : (lo + (hi - lo) / 2).toNat < i := by omega
          have hpw := (List.pairwise_iff_get.mp hsort)
            ⟨(lo + (hi - lo) / 2).toNat, hmlt⟩ ⟨i, hilen⟩ hij
          have hnle : nameLE (entries.get ⟨(lo + (hi - lo) / 2).toNat, hmlt⟩).name
              (entries.get ⟨i, hilen⟩).name := hpw
          rw [hname] at hnle
          exact hnle (strcmp_gt_iff.mpr hc)
        · have hfin : (⟨(lo + (hi - lo) / 2).toNat, hmlt⟩ : Fin entries.length) =
              ⟨i, hilen⟩ := Fin.mk_eq_mk.mpr (by omega)
          have hnm : (entries.get ⟨(lo + (hi - lo) / 2).toNat, hmlt⟩).name = path := by
            rw [hfin]
            exact hname
          rw [hnm, strcmp_self] at hc
          cases hc
      have := ih lo (lo + (hi - lo) / 2 - 1) hlo (by omega)
        ⟨i, hilen, hloi, by omega, hname⟩ (by omega)
      exact this

/-- C5: for every non-empty entry table, zip_sort_entries leaves the table a
permutation of the input sorted by byte-wise name comparison (the quicksort
call, made only when the count is at most the threshold 4, is an identity
because its own `hi - lo > 4` guard fails, and the unconditional insertion
sort then sorts everything), and binary search on any entry's name finds an
entry carrying exactly that name.  This covers every entry count at or below
the quicksort threshold as well as all larger counts. -/
theorem C5_sort_entries_sorted_findable (entries : List ZEntry)
    (hne : 0 < entries.length) :
    ∃ l, zip_sort_entries entries entries.length = some l ∧
      l.Pairwise entLE ∧
      l.Perm entries ∧
      ∀ i, ∀ hi : i < l.length, ∃ j, ∃ hj : j < l.length,
        zip_find_entry l (l.get ⟨i, hi⟩).name = BSearchRes.found j ∧
        (l.get ⟨j, hj⟩).name = (l.get ⟨i, hi⟩).name := by
  refine ⟨zip_insertion_sort entries, ?_, insertion_sort_pairwise entries,
    insertion_sort_perm entries, ?_⟩
  · unfold zip_sort_entries zip_quick_sort
    by_cases hle : entries.length ≤ 4
    · rw [if_pos hle]
      have hmod : (entries.length + (2 ^ 32 - 1)) % 2 ^ 32 = entries.length - 1 := by
        omega
      rw [hmod, if_neg (by omega : ¬ 4 < entries.length - 1 - 0)]
      rfl
    · rw [if_neg hle]
      rfl
  · intro i hi
    have := zip_find_entry_go_finds (zip_insertion_sort entries)
      ((zip_insertion_sort entries).get ⟨i, hi⟩).name
      (insertion_sort_pairwise entries)
      ((zip_insertion_sort entries).length + 2) 0
      (((zip_insertion_sort entries).length : Int) - 1) (by omega) (by omega)
      ⟨i, hi, by omega, by omega, rfl⟩ (by omega)
    exact this

/-- Three concrete entries (names `b`, `a`, `c`), below the quicksort
threshold. -/
def c5entries : List ZEntry :=
  [⟨[98], ZipResolveType.unresolvedFile, none, 0⟩,
   ⟨[97], ZipResolveType.unresolvedFile, none, 0⟩,
   ⟨[99], ZipResolveType.unresolvedFile, none, 0⟩]

theorem C5_witness :
    ∃ l, zip_sort_entries c5entries c5entries.length = some l ∧
      l.Pairwise entLE ∧
      l.Perm c5entries ∧
      ∀ i, ∀ hi : i < l.length, ∃ j, ∃ hj : j < l.length,
        zip_find_entry l (l.get ⟨i, hi⟩).name = BSearchRes.found j ∧
        (l.get ⟨j, hj⟩).name = (l.get ⟨i, hi⟩).name :=
  C5_sort_entries_sorted_findable c5entries (by decide)

/-! ## C10 / C1: zip_find_start_of_dir

Byte values are compared against `/` (47) as unsigned values; archive names
here are ASCII.  A probe of `entries[middle]` outside the table — undefined
behaviour in C — is modelled by the distinguished result `oobProbe`. -/

inductive FindDirRes
  | idx (i : Int)       /- returned index, or the final retval (possibly -1) -/
  | oobProbe (j : Int)  /- the loop read entries[j] outside the entry table -/
  | fuelOut             /- model artefact, unreachable with the supplied fuel -/
deriving DecidableEq, Repr

/-- The `while (lo <= hi)` loop of zip_find_start_of_dir (zip.c:1219-1246).
On `strncmp(path, name, dlen) == 0` the byte `name[dlen]` decides: below `/`
behaves like rc < 0, above like rc > 0; at `/` the probe either returns
`middle` (an exact directory-entry hit `name[dlen+1] == '\0'`, or
`stop_on_first_find`) or records `retval = middle` and continues leftwards
(`hi = middle - 1`; the shared trailing dispatch repeats that assignment with
the same value).  `getD` stands for `a[middle]` — only evaluated inside the
bounds test. -/
def zip_find_start_of_dir_go (names : List Name) (path : Name) (dlen : Nat) (stop1 : Bool) :
    Nat → Int → Int → Int → FindDirRes
  | 0, _, _, _ => FindDirRes.fuelOut
  | fuel + 1, lo, hi, retval =>
    if lo ≤ hi then
      if 0 ≤ lo + (hi - lo) / 2 ∧ lo + (hi - lo) / 2 < (names.length : Int) then
        match strncmpL path (names.getD (lo + (hi - lo) / 2).toNat []) dlen with
        | Ordering.eq =>
          if (names.getD (lo + (hi - lo) / 2).toNat []).getD dlen 0 < 47 then
            zip_find_start_of_dir_go names path dlen stop1 fuel
              lo (lo + (hi - lo) / 2 - 1) retval
          else if 47 < (names.getD (lo + (hi - lo) / 2).toNat []).getD dlen 0 then
            zip_find_start_of_dir_go names path dlen stop1 fuel
              (lo + (hi - lo) / 2 + 1) hi retval
          else if (names.getD (lo + (hi - lo) / 2).toNat []).getD (dlen + 1) 0 = 0 ∨
              stop1 = true then
            FindDirRes.idx (lo + (hi - lo) / 2)
          else
            zip_find_start_of_dir_go names path dlen stop1 fuel
              lo (lo + (hi - lo) / 2 - 1) (lo + (hi - lo) / 2)
        | Ordering.gt =>
          zip_find_start_of_dir_go names path dlen stop1 fuel
            (lo + (hi - lo) / 2 + 1) hi retval
        | Ordering.lt =>
          zip_find_start_of_dir_go names path dlen stop1 fuel
            lo (lo + (hi - lo) / 2 - 1) retval
      else FindDirRes.oobProbe (lo + (hi - lo) / 2)
    else FindDirRes.idx retval

/-- zip_find_start_of_dir (zip.c:1202-1249): the empty path is the root and
returns 0 immediately; a trailing `/` is dropped from the compared length;
`lo = 0` and — the point of C10 — `hi = entryCount`, one past the last valid
index. -/
def zip_find_start_of_dir (names : List Name) (path : Name) (stop1 : Bool) : FindDirRes :=
  if path = [] then FindDirRes.idx 0
  else
    zip_find_start_of_dir_go names path
      (if path.getD (path.length - 1) 0 = 47 then path.length - 1 else path.length)
      stop1 (names.length + 3) 0 (names.length : Int) (-1)

/-- C10 counterexample: with a single entry `a` and the query path `b`
(greater than every entry), the search narrows to `lo = hi = 1` and probes
`entries[1]` — index `entryCount`, outside the table.  The claim that the
out-of-range branch is unreachable is false. -/
theorem C10_oob_probe_reachable :
    zip_find_start_of_dir [[97]] [98] false = FindDirRes.oobProbe 1 ∧
    ([[97]] : List Name).length = 1 := ⟨rfl, rfl⟩

theorem zfsod_go_oob_bound (names : List Name) (path : Name) (dlen : Nat) (stop1 : Bool) :
    ∀ (fuel : Nat) (lo hi retval : Int), 0 ≤ lo → hi ≤ (names.length : Int) →
      ∀ j, zip_find_start_of_dir_go names path dlen stop1 fuel lo hi retval =
        FindDirRes.oobProbe j →
      j = (names.length : Int) := by
  intro fuel
  induction fuel with
  | zero =>
    intro lo hi retval _ _ j h
    cases h
  | succ fuel ih =>
    intro lo hi retval hlo hhi j h
    rw [zip_find_start_of_dir_go] at h
    by_cases hlh : lo ≤ hi
    · rw [if_pos hlh] at h
      by_cases hb : 0 ≤ lo + (hi - lo) / 2 ∧ lo + (hi - lo) / 2 < (names.length : Int)
      · rw [if_pos hb] at h
        cases hsc : strncmpL path (names.getD (lo + (hi - lo) / 2).toNat []) dlen with
        | eq =>
          rw [hsc] at h
          simp only [] at h
          split_ifs at h with h1 h2 h3
          all_goals first
            | cases h
            | exact ih lo (lo + (hi - lo) / 2 - 1) retval hlo (by omega) j h
            | exact ih (lo + (hi - lo) / 2 + 1) hi retval (by omega) hhi j h
            | exact ih lo (lo + (hi - lo) / 2 - 1) (lo + (hi - lo) / 2) hlo (by omega) j h
        | gt =>
          rw [hsc] at h
          exact ih (lo + (hi - lo) / 2 + 1) hi retval (by omega) hhi j h
        | lt =>
          rw [hsc] at h
          exact ih lo (lo + (hi - lo) / 2 - 1) retval hlo (by omega) j h
      · rw [if_neg hb] at h
        cases h
        omega
    · rw [if_neg hlh] at h
      cases h

/-- C10 amended: the binary search can read the entry at index `entryCount`
(see the counterexample), but never beyond it: whenever
zip_find_start_of_dir performs an out-of-range probe, that probe is at
exactly index `entryCount`. -/
theorem C10_probe_at_most_entryCount (names : List Name) (path : Name)
    (stop1 : Bool) (j : Int)
    (h : zip_find_start_of_dir names path stop1 = FindDirRes.oobProbe j) :
    j = (names.length : Int) := by
  by_cases hp : path = []
  · rw [zip_find_start_of_dir, if_pos hp] at h
    cases h
  · rw [zip_find_start_of_dir, if_neg hp] at h
    exact zfsod_go_oob_bound names path
      (if path.getD (path.length - 1) 0 = 47 then path.length - 1 else path.length)
      stop1 (names.length + 3) 0 (names.length : Int) (-1) (by omega) (by omega) j h

theorem C10_witness : (1 : Int) = (([[97]] : List Name).length : Int) :=
  C10_probe_at_most_entryCount [[97]] [98] false 1 (by rfl)

/-! ## C1: ZIP_enumerateFiles -/

/-- Placeholder entry for `List.getD` at positions that the bounds checks in
the model have already ruled out. -/
def defZEntry : ZEntry := ⟨[], ZipResolveType.unresolvedFile, none, 0⟩

/-- Result of an enumerateFiles call: the emitted basenames in order, a
NoSuchFile bail, or an out-of-bounds read (undefined behaviour in the C),
together with whatever had been emitted before it. -/
inductive EnumRes
  | ok (emitted : List Name)
  | noSuchFile
  | ubRead (emitted : List Name)
  | fuelOut
deriving DecidableEq, Repr

inductive SkipRes
  | cont (i : Nat)
  | oobAt (i : Nat)
  | fuelOut
deriving DecidableEq, Repr

/-- The `while (slash != NULL)` skip-children loop (zip.c:1294-1305): advance
`i` while `entries[i].name` starts with the first `dlen` bytes of `dirname`
AND has `/` at position `dlen`; the loop has no bounds check of its own, so
running off the end of the entry table is an out-of-bounds read. -/
def zip_enum_skip (entries : List ZEntry) (dirname : Name) (dlen : Nat) :
    Nat → Nat → SkipRes
  | 0, _ => SkipRes.fuelOut
  | fuel + 1, i =>
    match entries[i]? with
    | none => SkipRes.oobAt i
    | some e =>
      if strncmpL e.name dirname dlen = Ordering.eq then
        if e.name.getD dlen 0 = 47 then zip_enum_skip entries dirname dlen fuel (i + 1)
        else SkipRes.cont i
      else SkipRes.cont i

/-- The `while (1)` body of ZIP_enumerateFiles (zip.c:1267-1306).
`add_file = entry->name + dlen + (dlen > 0 ? 1 : 0)`; pointing the cursor past
the name's NUL terminator (offset beyond the name length) is an out-of-bounds
read the moment `*add_file` is tested.  A symlink (when omitting) or the
directory marker itself is skipped WITHOUT any bounds check (`i++; continue`),
so the next iteration's `entries[i]` access may be out of range — `entries[i]?
= none` models exactly that.  After an emission: `if (++i >= max) break;`,
then the `strncmp` dirname-prefix break, then the skip-children loop when the
emitted child contained a `/`. -/
def zip_enum_loop (entries : List ZEntry) (dirname : Name) (dlen : Nat) (omitLinks : Bool) :
    Nat → Nat → List Name → EnumRes
  | 0, _, _ => EnumRes.fuelOut
  | fuel + 1, i, acc =>
    match entries[i]? with
    | none => EnumRes.ubRead acc.reverse
    | some e =>
      if dlen + (if 0 < dlen then 1 else 0) > e.name.length then EnumRes.ubRead acc.reverse
      else
        if (omitLinks && zip_entry_is_symlink e) ||
            decide (e.name.drop (dlen + (if 0 < dlen then 1 else 0)) = []) then
          zip_enum_loop entries dirname dlen omitLinks fuel (i + 1) acc
        else
          match (e.name.drop (dlen + (if 0 < dlen then 1 else 0))).findIdx?
              (fun b => b == 47) with
          | some k =>
            if i + 1 ≥ entries.length then
              EnumRes.ok (((e.name.drop (dlen + (if 0 < dlen then 1 else 0))).take k
                :: acc)).reverse
            else if 0 < dlen ∧
                strncmpL (entries.getD (i + 1) defZEntry).name dirname dlen ≠ Ordering.eq then
              EnumRes.ok (((e.name.drop (dlen + (if 0 < dlen then 1 else 0))).take k
                :: acc)).reverse
            else
              match zip_enum_skip entries dirname dlen (entries.length + 1) (i + 1) with
              | SkipRes.cont i2 =>
                  zip_enum_loop entries dirname dlen omitLinks fuel i2
                    ((e.name.drop (dlen + (if 0 < dlen then 1 else 0))).take k :: acc)
              | SkipRes.oobAt _ =>
                  EnumRes.ubRead (((e.name.drop (dlen + (if 0 < dlen then 1 else 0))).take k
                    :: acc)).reverse
              | SkipRes.fuelOut => EnumRes.fuelOut
          | none =>
            if i + 1 ≥ entries.length then
              EnumRes.ok ((e.name.drop (dlen + (if 0 < dlen then 1 else 0)) :: acc)).reverse
            else if 0 < dlen ∧
                strncmpL (entries.getD (i + 1) defZEntry).name dirname dlen ≠ Ordering.eq then
              EnumRes.ok ((e.name.drop (dlen + (if 0 < dlen then 1 else 0)) :: acc)).reverse
            else
              zip_enum_loop entries dirname dlen omitLinks fuel (i + 1)
                (e.name.drop (dlen + (if 0 < dlen then 1 else 0)) :: acc)

/-- ZIP_enumerateFiles (zip.c:1252-1309).  `dlen = strlen(dirname)`; the test
`dirname[dlen - 1] == '/'` with an empty dirname indexes the byte before the
string (`dlen` is PHYSFS_uint32, so `dlen - 1` wraps) — an out-of-bounds
read; then `i = zip_find_start_of_dir(info, dirname, 0)`, bailing
ERR_NO_SUCH_FILE on -1, and the entry walk. -/
def ZIP_enumerateFiles (entries : List ZEntry) (dirname : Name) (omitLinks : Bool) : EnumRes :=
  if dirname.length = 0 then EnumRes.ubRead []
  else
    match zip_find_start_of_dir (entries.map (fun e => e.name)) dirname false with
    | FindDirRes.idx i =>
        if i = -1 then EnumRes.noSuchFile
        else
          zip_enum_loop entries dirname
            (if dirname.getD (dirname.length - 1) 0 = 47 then dirname.length - 1
             else dirname.length)
            omitLinks (entries.length + 2) i.toNat []
    | FindDirRes.oobProbe _ => EnumRes.ubRead []
    | FindDirRes.fuelOut => EnumRes.fuelOut

/-- The sorted entry table of the claim's scenario archive:
`d/`, `d/sub/`, `d/sub/z`, `d/x`, `d/y`, `e` (plain files/directories, host
OS Unix). -/
def c1entries : List ZEntry :=
  [⟨[100, 47], ZipResolveType.unresolvedFile, none, 3 * 256⟩,
   ⟨[100, 47, 115, 117, 98, 47], ZipResolveType.unresolvedFile, none, 3 * 256⟩,
   ⟨[100, 47, 115, 117, 98, 47, 122], ZipResolveType.unresolvedFile, none, 3 * 256⟩,
   ⟨[100, 47, 120], ZipResolveType.unresolvedFile, none, 3 * 256⟩,
   ⟨[100, 47, 121], ZipResolveType.unresolvedFile, none, 3 * 256⟩,
   ⟨[101], ZipResolveType.unresolvedFile, none, 3 * 256⟩]

/-- C1: enumerating `d` (bytes [100]) over the scenario archive does NOT
yield `sub`, `x`, `y`.  The walk emits `sub` (bytes [115,117,98]) from
`d/sub/`, and then the skip-children loop — whose condition tests the prefix
`dirname`, not the emitted subdirectory — swallows the siblings `d/x` and
`d/y` and stops on `e`, where the outer loop computes
`add_file = "e" + 2`, one byte past the name's terminator: an out-of-bounds
read, with only [`sub`] emitted. -/
theorem C1_enumerate_misses_children :
    ZIP_enumerateFiles c1entries [100] false = EnumRes.ubRead [[115, 117, 98]] ∧
    EnumRes.ubRead [[115, 117, 98]] ≠
      EnumRes.ok [[115, 117, 98], [120], [121]] := by
  exact ⟨rfl, by decide⟩

/-! ## C7: the lazy resolution state machine

zip_resolve / zip_resolve_symlink / zip_follow_symlink (zip.c:654-811) form a
mutual recursion over the shared entry table.  The ByteSource interactions
are an oracle `ResolveEnv`: `parseLocalOk i` is the outcome of
zip_parse_local for entry `i` (seek + header validation), `linkTarget i` the
NUL-truncated bytes read as entry `i`'s symlink target (`none` = read
failure).  The error channel models `__PHYSFS_setError`: each BAIL with a
message overwrites `lastErr`. -/

inductive ZipErr
  | corrupted
  | symlinkLoop
  | noSuchFile
  | parseFail   /- whichever message zip_parse_local set on its failing BAIL -/
deriving DecidableEq, Repr

structure RState where
  entries : List ZEntry
  lastErr : Option ZipErr
deriving DecidableEq, Repr

structure ResolveEnv where
  parseLocalOk : Nat → Bool
  linkTarget : Nat → Option Name

/-- In-place field update of one entry, as the C writes through the
`ZIPentry *` it holds. -/
def updEntry (l : List ZEntry) (i : Nat) (f : ZEntry → ZEntry) : List ZEntry :=
  match l[i]? with
  | some e => l.set i (f e)
  | none => l

def setResolved (st : RState) (i : Nat) (r : ZipResolveType) : RState :=
  { st with entries := updEntry st.entries i (fun e => { e with resolved := r }) }

def setSymlinkIdx (st : RState) (i : Nat) (t : Option Nat) : RState :=
  { st with entries := updEntry st.entries i (fun e => { e with symlink := t }) }

def setErr (st : RState) (e : ZipErr) : RState := { st with lastErr := some e }

theorem updEntry_length (l : List ZEntry) (i : Nat) (f : ZEntry → ZEntry) :
    (updEntry l i f).length = l.length := by
  unfold updEntry
  cases h : l[i]? with
  | none => rfl
  | some e => simp [List.length_set]

theorem updEntry_getElem (l : List ZEntry) (i : Nat) (f : ZEntry → ZEntry) :
    (updEntry l i f)[i]? = (l[i]?).map f := by
  unfold updEntry
  cases h : l[i]? with
  | none =>
    show l[i]? = Option.map f none
    rw [h]
    rfl
  | some e =>
    have hi : i < l.length := by
      by_contra hge
      push_neg at hge
      rw [List.getElem?_eq_none hge] at h
      cases h
    simp [List.getElem?_set_self hi, h]

/-- zip_convert_dos_path (zip.c:574-586): backslashes become slashes when the
entry's host OS byte says FS_FAT_. -/
def zip_convert_dos_path (version : Nat) (path : Name) : Name :=
  if (version / 256) % 256 = 0 then path.map (fun b => if b = 92 then 47 else b)
  else path

/-- The C string stored in the buffer: bytes before the NUL. -/
def bufToStr (buf : List Nat) : Name := buf.takeWhile (fun b => decide (b ≠ 0))

/-- zip_expand_symlink_path as called from zip_follow_symlink: run the loop;
`none` when it has not broken out of the loop within the given fuel (in
particular on the diverging inputs of C3). -/
def zip_expand_symlink_path_run (target : Name) (fuel : Nat) : Option Name :=
  (expandRun fuel (expandInit target)).map bufToStr

inductive RRes
  | ok (st : RState)
  | fail (st : RState)
  | hang
deriving DecidableEq, Repr

inductive SymRes
  | done (rc : Bool) (st : RState)
  | hang
deriving DecidableEq, Repr

inductive FollowRes
  | done (target : Option Nat) (st : RState)
  | hang
deriving DecidableEq, Repr

mutual

/-- zip_resolve (zip.c:769-811): dispatch on `entry->resolved`; Broken states
short-circuit to ERR_CORRUPTED, Resolving to ERR_SYMLINK_LOOP, Resolved is a
no-op; otherwise mark Resolving, validate the local header, chase the symlink
if the entry is one, and pin the final state to Resolved or the matching
Broken state.  `hang` is the model's answer when the call would not return
(the C3 divergence) or fuel is exhausted. -/
def zip_resolveM (env : ResolveEnv) (fuel : Nat) (st : RState) (idx : Nat) : RRes :=
  match fuel with
  | 0 => RRes.hang
  | fuel + 1 =>
    match st.entries[idx]? with
    | none => RRes.hang
    | some e =>
      match e.resolved with
      | ZipResolveType.brokenFile => RRes.fail (setErr st ZipErr.corrupted)
      | ZipResolveType.brokenSymlink => RRes.fail (setErr st ZipErr.corrupted)
      | ZipResolveType.resolving => RRes.fail (setErr st ZipErr.symlinkLoop)
      | ZipResolveType.resolved => RRes.ok st
      | ZipResolveType.unresolvedFile =>
        if env.parseLocalOk idx then
          RRes.ok (setResolved (setResolved st idx ZipResolveType.resolving) idx
            ZipResolveType.resolved)
        else
          RRes.fail (setResolved (setErr (setResolved st idx ZipResolveType.resolving)
            ZipErr.parseFail) idx ZipResolveType.brokenFile)
      | ZipResolveType.unresolvedSymlink =>
        if env.parseLocalOk idx then
          match zip_resolve_symlinkM env fuel (setResolved st idx ZipResolveType.resolving)
              idx with
          | SymRes.hang => RRes.hang
          | SymRes.done true st2 =>
              RRes.ok (setResolved st2 idx ZipResolveType.resolved)
          | SymRes.done false st2 =>
              RRes.fail (setResolved st2 idx ZipResolveType.brokenSymlink)
        else
          RRes.fail (setResolved (setErr (setResolved st idx ZipResolveType.resolving)
            ZipErr.parseFail) idx ZipResolveType.brokenSymlink)

/-- zip_resolve_symlink (zip.c:676-733): read the target bytes (seek + read
or decompress — `env.linkTarget`, `none` = failure leaving `entry->symlink`
NULL), convert DOS paths with the entry's own host byte, follow the target,
store the result into `entry->symlink`, and report `entry->symlink != NULL`. -/
def zip_resolve_symlinkM (env : ResolveEnv) (fuel : Nat) (st : RState) (idx : Nat) : SymRes :=
  match fuel with
  | 0 => SymRes.hang
  | fuel + 1 =>
    match env.linkTarget idx with
    | none => SymRes.done false st
    | some raw =>
      match st.entries[idx]? with
      | none => SymRes.hang
      | some e =>
        match zip_followM env fuel st (zip_convert_dos_path e.version raw) with
        | FollowRes.hang => SymRes.hang
        | FollowRes.done tgt st2 => SymRes.done tgt.isSome (setSymlinkIdx st2 idx tgt)

/-- zip_follow_symlink (zip.c:654-673): normalize the path, look it up,
resolve the entry it names (recursion!), and return that entry — or its own
final symlink target when it is itself a link; NULL (`none`) on any
failure. -/
def zip_followM (env : ResolveEnv) (fuel : Nat) (st : RState) (path : Name) : FollowRes :=
  match fuel with
  | 0 => FollowRes.hang
  | fuel + 1 =>
    match zip_expand_symlink_path_run path ((path.length + 2) * (path.length + 2)) with
    | none => FollowRes.hang
    | some path2 =>
      match zip_find_entry st.entries path2 with
      | BSearchRes.found i =>
        match zip_resolveM env fuel st i with
        | RRes.hang => FollowRes.hang
        | RRes.fail st2 => FollowRes.done none st2
        | RRes.ok st2 =>
          match st2.entries[i]? with
          | none => FollowRes.hang
          | some e2 =>
            match e2.symlink with
            | some t => FollowRes.done (some t) st2
            | none => FollowRes.done (some i) st2
      | BSearchRes.miss => FollowRes.done none (setErr st ZipErr.noSuchFile)
      | BSearchRes.oob _ => FollowRes.hang
      | BSearchRes.fuelOut => FollowRes.hang

end

/-- ZIP_openRead up to resolution (zip.c:1391-1402 via zip_get_file_handle,
zip.c:1367-1388): look the name up and resolve the entry; a resolution
failure propagates as a NULL FileHandle with the error state left by the
resolution. -/
def ZIP_openRead_resolve (env : ResolveEnv) (st : RState) (name : Name) : RRes :=
  match zip_find_entry st.entries name with
  | BSearchRes.found i => zip_resolveM env (st.entries.length * 4 + 8) st i
  | _ => RRes.fail (setErr st ZipErr.noSuchFile)

theorem setResolved_length (st : RState) (i : Nat) (r : ZipResolveType) :
    (setResolved st i r).entries.length = st.entries.length :=
  updEntry_length st.entries i _

theorem setSymlinkIdx_length (st : RState) (i : Nat) (t : Option Nat) :
    (setSymlinkIdx st i t).entries.length = st.entries.length :=
  updEntry_length st.entries i _

theorem resolve_machinery_length :
    ∀ fuel : Nat,
      (∀ (env : ResolveEnv) (st : RState) (idx : Nat) (st2 : RState),
        zip_resolveM env fuel st idx = RRes.ok st2 ∨
          zip_resolveM env fuel st idx = RRes.fail st2 →
        st2.entries.length = st.entries.length) ∧
      (∀ (env : ResolveEnv) (st : RState) (idx : Nat) (rc : Bool) (st2 : RState),
        zip_resolve_symlinkM env fuel st idx = SymRes.done rc st2 →
        st2.entries.length = st.entries.length) ∧
      (∀ (env : ResolveEnv) (st : RState) (path : Name) (tgt : Option Nat) (st2 : RState),
        zip_followM env fuel st path = FollowRes.done tgt st2 →
        st2.entries.length = st.entries.length) := by
  intro fuel
  induction fuel with
  | zero =>
    refine ⟨?_, ?_, ?_⟩
    · intro env st idx st2 h
      rcases h with h | h <;> simp [zip_resolveM] at h
    · intro env st idx rc st2 h
      simp [zip_resolve_symlinkM] at h
    · intro env st path tgt st2 h
      simp [zip_followM] at h
  | succ fuel ih =>
    obtain ⟨ihr, ihs, ihf⟩ := ih
    refine ⟨?_, ?_, ?_⟩
    · intro env st idx st2 h
      rw [zip_resolveM] at h
      split at h
      · rcases h with h | h <;> cases h
      · split at h
        · rcases h with h | h <;> cases h
          rfl
        · rcases h with h | h <;> cases h
          rfl
        · rcases h with h | h <;> cases h
          rfl
        · rcases h with h | h <;> cases h
          rfl
        · split at h
          · rcases h with h | h <;> cases h
            simp [setResolved_length]
          · rcases h with h | h <;> cases h
            simp [setResolved_length, setErr]
        · split at h
          · split at h
            · rcases h with h | h <;> cases h
            · rename_i st2' heq
              rcases h with h | h <;> cases h
              rw [setResolved_length]
              rw [ihs _ _ _ _ _ heq, setResolved_length]
            · rename_i st2' heq
              rcases h with h | h <;> cases h
              rw [setResolved_length]
              rw [ihs _ _ _ _ _ heq, setResolved_length]
          · rcases h with h | h <;> cases h
            simp [setResolved_length, setErr]
    · intro env st idx rc st2 h
      rw [zip_resolve_symlinkM] at h
      split at h
      · cases h
        rfl
      · split at h
        · cases h
        · split at h
          · cases h
          · rename_i tgt st2' heq
            cases h
            rw [setSymlinkIdx_length, ihf _ _ _ _ _ heq]
    · intro env st path tgt st2 h
      rw [zip_followM] at h
      split at h
      · cases h
      · split at h
        · split at h
          · cases h
          · rename_i st2' heq
            cases h
            exact ihr _ _ _ _ (Or.inr heq)
          · split at h
            · cases h
            · rename_i e2 hget2
              split at h <;> cases h <;>
                exact ihr _ _ _ _ (Or.inl (by assumption))
        · cases h
          rfl
        · cases h
        · cases h

theorem setResolved_get_same (st : RState) (idx : Nat) (r : ZipResolveType)
    (h : idx < st.entries.length) :
    ∃ e2, (setResolved st idx r).entries[idx]? = some e2 ∧ e2.resolved = r := by
  have hu := updEntry_getElem st.entries idx (fun e => { e with resolved := r })
  rw [List.getElem?_eq_getElem h] at hu
  simp only [Option.map_some'] at hu
  exact ⟨_, hu, rfl⟩

theorem getElem?_some_lt {l : List ZEntry} {i : Nat} {e : ZEntry}
    (h : l[i]? = some e) : i < l.length := by
  by_contra hge
  push_neg at hge
  rw [List.getElem?_eq_none hge] at h
  cases h

/-- The two-entry symlink loop of the claim's scenario: `a -> b`, `b -> a`
(host OS Unix, local headers valid, targets read successfully). -/
def c7entries : List ZEntry :=
  [⟨[97], ZipResolveType.unresolvedSymlink, none, 768⟩,
   ⟨[98], ZipResolveType.unresolvedSymlink, none, 768⟩]

def c7env : ResolveEnv :=
  ⟨fun _ => true, fun i => if i = 0 then some [98] else some [97]⟩

def c7state : RState := ⟨c7entries, none⟩

/-- The archive state after the first failed openRead of `a`: both entries
pinned BrokenSymlink, last error SymlinkLoop. -/
def c7afterFirst : RState :=
  ⟨[⟨[97], ZipResolveType.brokenSymlink, none, 768⟩,
    ⟨[98], ZipResolveType.brokenSymlink, none, 768⟩], some ZipErr.symlinkLoop⟩

/-- C7: resolution failure is pinned.  (1) A Broken entry makes zip_resolve
fail with Corrupted immediately, with no state change beyond the error slot
and no ByteSource interaction (the environment is arbitrary and unused).
(2, 3) When resolving an UnresolvedSymlink / UnresolvedFile entry fails, the
entry is left BrokenSymlink / BrokenFile — matching its original kind.
(4) In the two-entry loop `a -> b -> a`, the first openRead of `a` fails
leaving the error SymlinkLoop and both entries BrokenSymlink, and a second
openRead of `a` fails with Corrupted. -/
theorem C7_resolution_failure_pins :
    (∀ (env : ResolveEnv) (st : RState) (idx fuel : Nat) (e : ZEntry),
        st.entries[idx]? = some e →
        e.resolved = ZipResolveType.brokenFile ∨
          e.resolved = ZipResolveType.brokenSymlink →
        zip_resolveM env (fuel + 1) st idx = RRes.fail (setErr st ZipErr.corrupted)) ∧
    (∀ (env : ResolveEnv) (fuel : Nat) (st : RState) (idx : Nat) (e : ZEntry) (st2 : RState),
        st.entries[idx]? = some e →
        e.resolved = ZipResolveType.unresolvedSymlink →
        zip_resolveM env fuel st idx = RRes.fail st2 →
        ∃ e2, st2.entries[idx]? = some e2 ∧
          e2.resolved = ZipResolveType.brokenSymlink) ∧
    (∀ (env : ResolveEnv) (fuel : Nat) (st : RState) (idx : Nat) (e : ZEntry) (st2 : RState),
        st.entries[idx]? = some e →
        e.resolved = ZipResolveType.unresolvedFile →
        zip_resolveM env fuel st idx = RRes.fail st2 →
        ∃ e2, st2.entries[idx]? = some e2 ∧
          e2.resolved = ZipResolveType.brokenFile) ∧
    (ZIP_openRead_resolve c7env c7state [97] = RRes.fail c7afterFirst ∧
      c7afterFirst.lastErr = some ZipErr.symlinkLoop ∧
      ZIP_openRead_resolve c7env c7afterFirst [97] =
        RRes.fail (setErr c7afterFirst ZipErr.corrupted) ∧
      (setErr c7afterFirst ZipErr.corrupted).lastErr = some ZipErr.corrupted) := by
  refine ⟨?_, ?_, ?_, ?_, ?_, ?_, ?_⟩
  · intro env st idx fuel e hget hbr
    rcases hbr with hb | hb <;> simp [zip_resolveM, hget, hb]
  · intro env fuel st idx e st2 hget hures h
    have hlt : idx < st.entries.length := getElem?_some_lt hget
    cases fuel with
    | zero => simp [zip_resolveM] at h
    | succ fuel =>
      rw [zip_resolveM] at h
      simp only [hget, hures] at h
      by_cases hp : env.parseLocalOk idx = true
      · rw [if_pos hp] at h
        cases hs : zip_resolve_symlinkM env fuel
            (setResolved st idx ZipResolveType.resolving) idx with
        | hang => rw [hs] at h; cases h
        | done rc st2' =>
          rw [hs] at h
          cases rc with
          | true => cases h
          | false =>
            injection h with h2
            subst h2
            have hlen : st2'.entries.length = st.entries.length := by
              have := (resolve_machinery_length fuel).2.1 env
                (setResolved st idx ZipResolveType.resolving) idx false st2' hs
              rw [this, setResolved_length]
            exact setResolved_get_same st2' idx ZipResolveType.brokenSymlink (by omega)
      · rw [if_neg hp] at h
        injection h with h2
        subst h2
        apply setResolved_get_same
        rw [setErr, setResolved_length]
        exact hlt
  · intro env fuel st idx e st2 hget hures h
    have hlt : idx < st.entries.length := getElem?_some_lt hget
    cases fuel with
    | zero => simp [zip_resolveM] at h
    | succ fuel =>
      rw [zip_resolveM] at h
      simp only [hget, hures] at h
      by_cases hp : env.parseLocalOk idx = true
      · rw [if_pos hp] at h
        cases h
      · rw [if_neg hp] at h
        injection h with h2
        subst h2
        apply setResolved_get_same
        rw [setErr, setResolved_length]
        exact hlt
  · rfl
  · rfl
  · rfl
  · rfl

theorem C7_witness :
    zip_resolveM c7env 1 c7afterFirst 0 = RRes.fail (setErr c7afterFirst ZipErr.corrupted) :=
  C7_resolution_failure_pins.1 c7env c7afterFirst 0 0
    ⟨[97], ZipResolveType.brokenSymlink, none, 768⟩ (by rfl) (Or.inr rfl)
